import Mathlib

/-!
Verification of the Ticket_triage knowledge-retrieval pipeline.

This file gives a shallow embedding of the core components of the
repository (markdown chunker, vector-store search post-processing,
classifier adapter, retriever, suggestion adapter, orchestrator) and
proves or refutes the specification claims about them.

Strings are modelled as `List Char` (`Str` below); Python string
operations (`split`, `strip`, `join`, slicing) are translated directly.
Python's `\s` whitespace class is modelled over ASCII.
-/

set_option maxHeartbeats 1000000

abbrev Str := List Char

/-- ASCII model of Python's whitespace class used by `str.strip`, `\s`
in the chunker's regexes: space, tab, newline, carriage return,
form feed, vertical tab. -/
def isPyWS (c : Char) : Bool :=
  c == ' ' || c == '\t' || c == '\n' || c == '\r' ||
  c == Char.ofNat 12 || c == Char.ofNat 11

/-- Python `str.strip()`: drop leading and trailing whitespace. -/
def strip (s : Str) : Str :=
  ((s.dropWhile isPyWS).reverse.dropWhile isPyWS).reverse

/-- Python `str.split(sep)` for a single-character separator: splits on
every occurrence, keeping empty pieces. -/
def splitChar (sep : Char) : Str → List Str
  | [] => [[]]
  | c :: rest =>
    if c = sep then [] :: splitChar sep rest
    else
      match splitChar sep rest with
      | [] => [[c]]
      | p :: ps => (c :: p) :: ps

/-- Python `sep.join(pieces)`. -/
def joinSep (sep : Str) : List Str → Str
  | [] => []
  | [x] => x
  | x :: xs => x ++ sep ++ joinSep sep xs

/-- Erase all whitespace characters ("modulo whitespace" comparisons). -/
def eraseWS (s : Str) : Str := s.filter (fun c => !isPyWS c)

/-- Sum of the lengths of a list of strings. -/
def sumLen (l : List Str) : Nat := (l.map List.length).sum

/-- Maximum length over a list of strings. -/
def maxLen (l : List Str) : Nat := (l.map List.length).foldr max 0

/-! ## Chunker (src/knowledge_base/chunker.py) -/

/-- Configuration of `MarkdownChunker.__init__`. -/
structure ChunkerConfig where
  chunk_size : Nat
  chunk_overlap : Nat
  min_chunk_size : Nat
deriving DecidableEq, Repr

/-- Metadata dict attached to each chunk by `chunk_document`. -/
structure ChunkMeta where
  source : Str
  sect : Str
  part : Option Nat
  type : Str
deriving DecidableEq, Repr

/-- `DocumentChunk` dataclass. -/
structure DocumentChunk where
  content : Str
  metadata : ChunkMeta
  chunk_index : Nat
  source_file : Str
  section_header : Str
deriving DecidableEq, Repr

/-- Count of leading '#' characters of a line. -/
def hashCount : Str → Nat
  | '#' :: r => hashCount r + 1
  | _ => 0

/-- The regex match of `chunker._split_by_headers`'s header pattern
`(#{2,3})\s+(.+?)$` against a line (lines contain no newline), returning
`group(2).strip()` on success: 2 or 3 leading hashes, followed by at
least one whitespace character and at least one further character;
the captured text is the remainder after the maximal whitespace run
(empty when the rest of the line is all whitespace, matching the
regex's backtracking into the lazy group). -/
def matchHeader (l : Str) : Option Str :=
  let n := hashCount l
  if n = 2 ∨ n = 3 then
    match l.drop n with
    | c :: _ :: _ =>
      if isPyWS c then some (strip ((l.drop n).dropWhile isPyWS)) else none
    | _ => none
  else none

/-- Loop body of `MarkdownChunker._split_by_headers`: accumulates the
lines of the current section, closing it at each header line. A section
is emitted when its line list or header is non-empty; its content is the
newline-join of its lines, stripped. -/
def splitByHeadersGo (curH : Str) (curC : List Str) : List Str → List (Str × Str)
  | [] =>
    if curC ≠ [] ∨ curH ≠ [] then [(curH, strip (joinSep ['\n'] curC))] else []
  | l :: rest =>
    match matchHeader l with
    | some h =>
      (if curC ≠ [] ∨ curH ≠ [] then [(curH, strip (joinSep ['\n'] curC))] else [])
        ++ splitByHeadersGo h [] rest
    | none => splitByHeadersGo curH (curC ++ [l]) rest

/-- `MarkdownChunker._split_by_headers`. -/
def splitByHeaders (content : Str) : List (Str × Str) :=
  splitByHeadersGo [] [] (splitChar '\n' content)

/-- Is the character one of the sentence terminators `.`, `!`, `?`. -/
def isSentEnd (c : Char) : Bool := c == '.' || c == '!' || c == '?'

/-- Scanner for `re.split((?<=[.!?])\s+, text)`: a piece is closed at a
whitespace character whose predecessor is a sentence terminator; the
whole whitespace run is then consumed (`skipping = true`) before the
next piece starts. -/
def splitSentGo (skipping : Bool) (cur : Str) : Str → List Str
  | [] => [cur]
  | c :: rest =>
    if skipping && isPyWS c then splitSentGo true cur rest
    else if !skipping && isPyWS c && (match cur.getLast? with
        | some p => isSentEnd p
        | none => false) then
      cur :: splitSentGo true [] rest
    else splitSentGo false (cur ++ [c]) rest

/-- `MarkdownChunker._split_sentences`: regex split, then strip each
piece and drop empty ones. -/
def splitSentences (text : Str) : List Str :=
  ((splitSentGo false [] text).map strip).filter (· ≠ [])

/-- The backwards loop of `_group_sentences` computing the overlap
seed: walk the closed chunk's sentences from the end, prepending each
while `overlap_size + len(s) <= chunk_overlap`, where `overlap_size`
grows by `len(s) + 1`; stop at the first failure. `rev` is the closed
chunk reversed. -/
def overlapGo (V : Nat) (osize : Nat) (acc : List Str) : List Str → List Str
  | [] => acc
  | s :: rev =>
    if osize + s.length ≤ V then overlapGo V (osize + s.length + 1) (s :: acc) rev
    else acc

/-- Overlap seed kept when a sentence chunk closes. -/
def overlapOf (V : Nat) (cur : List Str) : List Str :=
  overlapGo V 0 [] cur.reverse

/-- Loop of `MarkdownChunker._group_sentences`, producing the grouped
sentence lists (the emitted chunks are their `' '.join`s). `cur` is
`current_chunk`, `clen` is `current_length`. -/
def groupGo (S V : Nat) (cur : List Str) (clen : Nat) : List Str → List (List Str)
  | [] => if cur = [] then [] else [cur]
  | s :: rest =>
    if clen + s.length ≤ S then
      groupGo S V (cur ++ [s]) (clen + s.length + 1) rest
    else if cur ≠ [] then
      let seed := overlapOf V cur ++ [s]
      cur :: groupGo S V seed (sumLen seed + seed.length) rest
    else
      groupGo S V [s] s.length rest

/-- `MarkdownChunker._group_sentences` at the level of sentence lists. -/
def groupSentencesLists (cfg : ChunkerConfig) (sentences : List Str) : List (List Str) :=
  groupGo cfg.chunk_size cfg.chunk_overlap [] 0 sentences

/-- `MarkdownChunker._group_sentences`: the emitted chunk strings. -/
def groupSentences (cfg : ChunkerConfig) (sentences : List Str) : List Str :=
  (groupSentencesLists cfg sentences).map (joinSep [' '])

/-- Python `text.split('\n\n')`: split on non-overlapping occurrences
of a blank-line separator, scanning left to right. -/
def splitPPGo (cur : Str) : Str → List Str
  | '\n' :: '\n' :: rest => cur :: splitPPGo [] rest
  | c :: rest => splitPPGo (cur ++ [c]) rest
  | [] => [cur]

/-- Paragraph split of `_split_with_overlap`. -/
def splitPP (text : Str) : List Str := splitPPGo [] text

/-- Loop of `MarkdownChunker._split_with_overlap` over paragraphs:
pack stripped paragraphs greedily (`+2` accounting for the `\n\n`
separator); an oversized paragraph is split into sentences and grouped
with overlap. -/
def swoGo (cfg : ChunkerConfig) (cur : List Str) (clen : Nat) : List Str → List Str
  | [] => if cur = [] then [] else [joinSep ['\n', '\n'] cur]
  | p0 :: rest =>
    if strip p0 = [] then swoGo cfg cur clen rest
    else if clen + (strip p0).length ≤ cfg.chunk_size then
      swoGo cfg (cur ++ [strip p0]) (clen + (strip p0).length + 2) rest
    else
      (if cur ≠ [] then [joinSep ['\n', '\n'] cur] else []) ++
      (if cfg.chunk_size < (strip p0).length then
        groupSentences cfg (splitSentences (strip p0)) ++ swoGo cfg [] 0 rest
      else
        swoGo cfg [strip p0] (strip p0).length rest)

/-- `MarkdownChunker._split_with_overlap`. -/
def splitWithOverlap (cfg : ChunkerConfig) (text : Str) : List Str :=
  swoGo cfg [] 0 (splitPP text)

/-- Python's substring test `needle in hay`. -/
def hasSub (needle : Str) : Str → Bool
  | [] => needle.isEmpty
  | c :: rest => needle.isPrefixOf (c :: rest) || hasSub needle rest

/-- `MarkdownChunker._infer_type`: path-keyword inference. -/
def inferType (sourceFile : Str) : Str :=
  let lower := sourceFile.map Char.toLower
  if hasSub "infrastructure".data lower then "infrastructure".data
  else if hasSub "application".data lower then "application".data
  else if hasSub "monitoring".data lower then "monitoring".data
  else "general".data

/-- The rendered header line injected in front of a multi-part chunk. -/
def partHeader (headerText : Str) (i total : Nat) : Str :=
  if 1 < total then
    "## ".data ++ headerText ++ " (Part ".data ++ (Nat.repr (i + 1)).data ++ ")".data
      ++ "\n\n".data
  else
    "## ".data ++ headerText ++ "\n\n".data

/-- The chunks built for one oversized section: one `DocumentChunk` per
element of `_split_with_overlap`, with `(Part N)` header suffix and
`part` metadata only when there are several parts. `i` is the position
within the section, `startIdx` the running `chunk_index` of the first. -/
def partChunks (src headerText : Str) (total startIdx i : Nat) :
    List Str → List DocumentChunk
  | [] => []
  | sub :: rest =>
    { content := partHeader headerText i total ++ sub
      metadata :=
        { source := src
          sect := headerText
          part := if 1 < total then some (i + 1) else none
          type := inferType src }
      chunk_index := startIdx + i
      source_file := src
      section_header := headerText } :: partChunks src headerText total startIdx (i + 1) rest

/-- The chunks `chunk_document` emits for one section, given the
running chunk index at which they start. -/
def sectionChunks (cfg : ChunkerConfig) (src : Str) (startIdx : Nat)
    (sec : Str × Str) : List DocumentChunk :=
  if strip sec.2 = [] then []
  else if sec.2.length ≤ cfg.chunk_size then
    [{ content :=
         if sec.1 ≠ [] then "## ".data ++ sec.1 ++ "\n\n".data ++ sec.2 else sec.2
       metadata :=
         { source := src
           sect := if sec.1 = [] then "Introduction".data else sec.1
           part := none
           type := inferType src }
       chunk_index := startIdx
       source_file := src
       section_header := if sec.1 = [] then "Introduction".data else sec.1 }]
  else
    partChunks src (if sec.1 = [] then "Introduction".data else sec.1)
      (splitWithOverlap cfg sec.2).length startIdx 0 (splitWithOverlap cfg sec.2)

/-- `MarkdownChunker.chunk_document`: split into sections, emit the
chunks of each non-empty section with a running `chunk_index`. -/
def chunkDocument (cfg : ChunkerConfig) (content src : Str) : List DocumentChunk :=
  (splitByHeaders content).foldl
    (fun acc sec => acc ++ sectionChunks cfg src acc.length sec) []

/-- The substantive bodies of the chunks, in emission order: the
section content itself for a section that fits in one chunk, the
`_split_with_overlap` pieces otherwise (exactly the text onto which
`chunk_document` prepends the injected header lines). -/
def sectionBodies (cfg : ChunkerConfig) (sec : Str × Str) : List Str :=
  if strip sec.2 = [] then []
  else if sec.2.length ≤ cfg.chunk_size then [sec.2]
  else splitWithOverlap cfg sec.2

/-- All chunk bodies of a document. -/
def chunkBodies (cfg : ChunkerConfig) (content : Str) : List Str :=
  (splitByHeaders content).flatMap (sectionBodies cfg)

/-- The non-header lines of a document, concatenated: the text of the
source that is not consumed as a header by `_split_by_headers`. -/
def nonHeaderText (content : Str) : Str :=
  (((splitChar '\n' content).filter (fun l => (matchHeader l).isNone))).flatten

/-- Sentences appearing anywhere in the document via the chunker's
decomposition (sections, then paragraphs, then sentence split). -/
def allSentences (content : Str) : List Str :=
  (splitByHeaders content).flatMap fun sec =>
    (splitPP sec.2).flatMap fun p => splitSentences (strip p)

/-- Length of the longest sentence of the document. -/
def maxSentLen (content : Str) : Nat := maxLen (allSentences content)

/-! ## Vector store search (src/knowledge_base/vector_store.py)

The ChromaDB backend returns parallel lists of documents, metadata
dicts and cosine distances; `VectorStore.search` post-processes them.
Distances and scores are modelled as rationals (the filtering logic is
pure order arithmetic). Metadata dicts are modelled as records with
optional fields, matching the `.get` accesses. -/

/-- Metadata record of an index entry as read back from the backend. -/
structure VSMeta where
  source : Option Str
  sect : Option Str
  type : Option Str
deriving DecidableEq, Repr

/-- `SearchResult` dataclass. -/
structure SearchResult where
  content : Str
  source_file : Str
  sect : Str
  score : ℚ
  metadata : VSMeta
deriving DecidableEq, Repr

/-- `VectorStore.search` post-processing: zip the backend's documents,
metadatas and distances, convert each cosine distance to a similarity
score `1 - distance`, and keep a result only when `score >= min_score`. -/
def vsSearch (docs : List Str) (metas : List VSMeta) (dists : List ℚ)
    (minScore : ℚ) : List SearchResult :=
  if docs = [] then []
  else
    ((docs.zip metas).zip dists).filterMap fun dm =>
      let score : ℚ := 1 - dm.2
      if minScore ≤ score then
        some { content := dm.1.1
               source_file := dm.1.2.source.getD "unknown".data
               sect := dm.1.2.sect.getD []
               score := score
               metadata := dm.1.2 }
      else none

/-! ## Index backend upsert (src/knowledge_base/vector_store.py)

Modelled from the spec: `VectorStore.add_documents` delegates to the
external ChromaDB `collection.upsert`, whose storage semantics are not
part of src/. Per spec section 4.2, upsert is
"idempotent - re-upserting an existing id replaces its record in place
(no duplicate entries, no growth)": an incoming record replaces the
entry with the same id, or is appended when the id is new. -/

/-- One stored `(id, document, embedding, metadata)` record. -/
structure IndexRecord where
  id : Str
  document : Str
  embedding : List ℚ
  metadata : VSMeta
deriving DecidableEq, Repr

/-- Modelled from the spec: insert-or-replace of a single record by id
(the ChromaDB `collection.upsert` semantics for one element). -/
def upsertOne (store : List IndexRecord) (e : IndexRecord) : List IndexRecord :=
  if store.any (fun x => x.id == e.id) then
    store.map (fun x => if x.id = e.id then e else x)
  else store ++ [e]

/-- `VectorStore.add_documents`: upsert a batch of records. -/
def addDocuments (store : List IndexRecord) (batch : List IndexRecord) :
    List IndexRecord :=
  batch.foldl upsertOne store

/-- Number of stored records carrying a given id. -/
def countId (store : List IndexRecord) (i : Str) : Nat :=
  store.countP (fun e => decide (e.id = i))

/-! ## Classifier adapter (src/llm/groq_client.py, src/app/services/triage_service.py) -/

/-- Alert type enum of `app.models.webhook.AlertType`. -/
inductive AlertTy
  | infrastructure | application | monitoring | unknown
deriving DecidableEq, Repr

/-- Severity enum of `app.models.webhook.AlertSeverity`. -/
inductive SeverityTy
  | critical | high | medium | low | info
deriving DecidableEq, Repr

/-- The string value of an `AlertType` member. -/
def alertTyValue : AlertTy → Str
  | .infrastructure => "infrastructure".data
  | .application => "application".data
  | .monitoring => "monitoring".data
  | .unknown => "unknown".data

/-- `AlertType(value)` constructor lookup: `some` member on a
recognized value, `none` (a `ValueError`) otherwise. -/
def parseAlertTy (s : Str) : Option AlertTy :=
  if s = "infrastructure".data then some .infrastructure
  else if s = "application".data then some .application
  else if s = "monitoring".data then some .monitoring
  else if s = "unknown".data then some .unknown
  else none

/-- `AlertSeverity(value)` constructor lookup. -/
def parseSeverity (s : Str) : Option SeverityTy :=
  if s = "critical".data then some .critical
  else if s = "high".data then some .high
  else if s = "medium".data then some .medium
  else if s = "low".data then some .low
  else if s = "info".data then some .info
  else none

/-- A JSON value as returned by `json.loads`: the classifier response
need not be an object, and object fields need not be strings. The
numeric payload's exact value never matters to the adapter, so numbers
are carried as integers. An object's field list binds each key at most
once (`json.loads` collapses duplicate keys). -/
inductive JValue
  | jstr (s : Str)
  | jnum (n : Int)
  | jbool (b : Bool)
  | jnull
  | jarr (elems : List JValue)
  | jobj (fields : List (Str × JValue))

/-- Python `dict.get(key, default)` on a parsed JSON object's fields. -/
def jGet (fields : List (Str × JValue)) (key : Str) (dflt : JValue) : JValue :=
  match fields.find? (fun kv => kv.1 == key) with
  | some kv => kv.2
  | none => dflt

/-- Python `dict.get(key)` (default `None`): a missing key and an
explicit JSON `null` are both Python `None`. -/
def jGetOpt (fields : List (Str × JValue)) (key : Str) : JValue :=
  jGet fields key .jnull

/-- The code-fence stripping and re-stripping `GroqClient.classify_alert`
applies to the raw LLM response before `json.loads`. -/
def cleanResponse (response : Str) : Str :=
  let r := strip response
  let r := if ("```json".data).isPrefixOf r then r.drop 7 else r
  let r := if ("```".data).isPrefixOf r then r.drop 3 else r
  let r := if ("```".data).isSuffixOf r then r.take (r.length - 3) else r
  strip r

/-- The full-fallback classification dict built on `json.JSONDecodeError`
(title truncated to the first 100 characters of the alert text). -/
def fallbackDict (alert_text : Str) : JValue :=
  .jobj [("alert_type".data, .jstr "unknown".data),
         ("severity".data, .jstr "medium".data),
         ("title".data, .jstr (alert_text.take 100)),
         ("affected_component".data, .jnull),
         ("source_system".data, .jnull)]

/-- `GroqClient.classify_alert`: clean the response, parse it with the
external `json.loads` (the `loads` parameter; `none` models a
`json.JSONDecodeError`), and fall back to the default dict when parsing
fails. Only the decode error is caught: a successfully parsed JSON
value of any shape, object or not, is returned as-is. -/
def groqClassifyAlert (loads : Str → Option JValue) (alert_text response : Str) :
    JValue :=
  match loads (cleanResponse response) with
  | some v => v
  | none => fallbackDict alert_text

/-- The uncaught Python exceptions `TriageService.classify_alert` can
raise when handed a malformed but successfully parsed response:
`AttributeError` from calling `.get` on a non-dict value, `TypeError`
from passing an unhashable value to an enum constructor, and pydantic's
`ValidationError` from a non-string `title`, `source_system` or
`affected_component`. -/
inductive PyError
  | attributeError
  | typeError
  | validationError
deriving DecidableEq, Repr

/-- `AlertType(value)` / `AlertSeverity(value)` inside the caller's
`try/except ValueError`: a recognized string value yields the member;
any other hashable value (an unrecognized string, a number, a bool,
`None`) raises `ValueError`, which is caught, keeping the default; an
unhashable value (a list or dict) raises `TypeError`, which the
`except ValueError` clause does not catch. -/
def enumTry {α : Type} (parse : Str → Option α) (dflt : α) : JValue → Except PyError α
  | .jstr s => .ok ((parse s).getD dflt)
  | .jarr _ => .error .typeError
  | .jobj _ => .error .typeError
  | _ => .ok dflt

/-- Pydantic validation of the required `str` field `title`: accepts a
string, rejects any other value (including `None`) with a
`ValidationError`. -/
def pyStr : JValue → Except PyError Str
  | .jstr s => .ok s
  | _ => .error .validationError

/-- Pydantic validation of an `Optional[str]` field: accepts a string
or `None`, rejects anything else with a `ValidationError`. -/
def pyOptStr : JValue → Except PyError (Option Str)
  | .jstr s => .ok (some s)
  | .jnull => .ok none
  | _ => .error .validationError

/-- `ParsedAlert` (the fields the pipeline reads; timestamps and Webex
context ids are irrelevant to the claims and omitted). -/
structure ParsedAlert where
  raw_message : Str
  alert_type : AlertTy
  severity : SeverityTy
  title : Str
  description : Str
  source_system : Option Str
  affected_component : Option Str
deriving DecidableEq, Repr

/-- `TriageService.classify_alert`: obtain the classification value,
read its fields with `.get` (an `AttributeError` when it is not a
dict), map `alert_type`/`severity` onto the enums under
`try/except ValueError`, and build the `ParsedAlert` under pydantic
validation. Each uncaught exception propagates as an `Except.error`. -/
def triageClassifyAlert (loads : Str → Option JValue) (raw_message response : Str) :
    Except PyError ParsedAlert :=
  match groqClassifyAlert loads raw_message response with
  | .jobj fields =>
    match enumTry parseAlertTy AlertTy.unknown
        (jGet fields "alert_type".data (.jstr "unknown".data)) with
    | .error e => .error e
    | .ok alert_type =>
      match enumTry parseSeverity SeverityTy.medium
          (jGet fields "severity".data (.jstr "medium".data)) with
      | .error e => .error e
      | .ok severity =>
        match pyStr (jGet fields "title".data (.jstr (raw_message.take 100))) with
        | .error e => .error e
        | .ok title =>
          match pyOptStr (jGetOpt fields "source_system".data) with
          | .error e => .error e
          | .ok source_system =>
            match pyOptStr (jGetOpt fields "affected_component".data) with
            | .error e => .error e
            | .ok affected_component =>
              .ok { raw_message := raw_message
                    alert_type := alert_type
                    severity := severity
                    title := title
                    description := raw_message
                    source_system := source_system
                    affected_component := affected_component }
  | _ => .error PyError.attributeError

/-- The `ParsedAlert` produced from the full-fallback dict. -/
def fallbackAlert (raw : Str) : ParsedAlert :=
  { raw_message := raw
    alert_type := AlertTy.unknown
    severity := SeverityTy.medium
    title := raw.take 100
    description := raw
    source_system := none
    affected_component := none }

/-! ## Retriever (TriageService.search_runbooks) -/

/-- `TriageService.search_runbooks`: build the query text and type
filter from the alert and delegate to the indexer's search capability
(`search query n_results filter_type min_score`). -/
def searchRunbooks (search : Str → Nat → Option Str → ℚ → List SearchResult)
    (alert : ParsedAlert) (nResults : Nat) (minScore : ℚ) : List SearchResult :=
  let searchQuery := alert.title ++ " ".data ++ alert.description
  let filterType : Option Str :=
    if alert.alert_type ≠ AlertTy.unknown then some (alertTyValue alert.alert_type)
    else none
  search searchQuery nResults filterType minScore

/-! ## Suggestion adapter (TriageService.generate_suggestion) -/

/-- The fixed sentinel context used when retrieval returned nothing. -/
def noContextSentinel : Str :=
  "No relevant runbook sections found. Please use general troubleshooting practices.".data

/-- `TriageService._format_runbook_context`: the sentinel for an empty
result list, otherwise numbered source blocks. The percentage rendering
of the score is the external `pct` formatter. -/
def formatRunbookContext (pct : ℚ → Str) (results : List SearchResult) : Str :=
  if results = [] then noContextSentinel
  else
    joinSep ['\n'] ((results.enumFrom 1).map fun ri =>
      "### Source ".data ++ (Nat.repr ri.1).data ++ ": ".data ++ ri.2.source_file
        ++ " (Relevance: ".data ++ pct ri.2.score ++ ")\n".data
        ++ ri.2.content ++ "\n".data)

/-- The confidence extraction heuristic of
`TriageService.generate_suggestion`: substring scans for "High"/"Low"
and "Confidence", defaulting to "Medium". -/
def confidenceOf (suggestion : Str) : Str :=
  if hasSub "High".data suggestion && hasSub "Confidence".data suggestion then
    "High".data
  else if hasSub "Low".data suggestion && hasSub "Confidence".data suggestion then
    "Low".data
  else "Medium".data

/-- `TriageService.generate_suggestion`: format the runbook context,
invoke the external generation capability (`gen` receives the alert and
the formatted context), and extract the confidence label. -/
def generateSuggestion (gen : ParsedAlert → Str → Str) (pct : ℚ → Str)
    (alert : ParsedAlert) (results : List SearchResult) : Str × Str :=
  let ctx := formatRunbookContext pct results
  let suggestion := gen alert ctx
  (suggestion, confidenceOf suggestion)

/-! ## Orchestrator (TriageService.process_alert) -/

/-- The ticket record handed to the persistence collaborator. -/
structure Ticket where
  title : Str
  description : Str
  raw_message : Str
  suggestion : Str
  runbook_sources : List Str
  confidence_score : Str
deriving DecidableEq, Repr

/-- `TriageService.process_alert` with a fallible generation capability
(`Except` models a raised exception): classify, search, generate, then
create the ticket. Returns the final ticket store (the repository
state) together with the outcome; on a generation error the error
propagates and the store is returned unchanged. -/
def processAlert (classify : Str → ParsedAlert)
    (searchRB : ParsedAlert → List SearchResult)
    (gen : ParsedAlert → Str → Except Str Str) (pct : ℚ → Str)
    (db : List Ticket) (raw_message : Str) : List Ticket × Except Str Ticket :=
  let alert := classify raw_message
  let results := searchRB alert
  match gen alert (formatRunbookContext pct results) with
  | .error e => (db, .error e)
  | .ok suggestion =>
    let confidence := confidenceOf suggestion
    let t : Ticket :=
      { title := alert.title
        description := alert.description
        raw_message := alert.raw_message
        suggestion := suggestion
        runbook_sources := results.map (·.source_file)
        confidence_score := confidence }
    (db ++ [t], .ok t)

/-! ## Derived definitions used in claim statements -/

/-- The retriever call shape: `search_runbooks` passes the query
`title + " " + description` and the type filter derived from the alert
type (`None` exactly for `unknown`). -/
def specTypeFilter (alert : ParsedAlert) : Option Str :=
  match alert.alert_type with
  | .unknown => none
  | t => some (alertTyValue t)

/-! ## Concrete instances used by counterexamples and witnesses -/

/-- An alert whose classification stayed at the defaults. -/
def unknownAlert : ParsedAlert :=
  { raw_message := "m".data, alert_type := AlertTy.unknown,
    severity := SeverityTy.medium, title := "t".data, description := "m".data,
    source_system := none, affected_component := none }

/-- An alert classified as critical infrastructure. -/
def infraAlert : ParsedAlert :=
  { raw_message := "m".data, alert_type := AlertTy.infrastructure,
    severity := SeverityTy.critical, title := "t".data, description := "m".data,
    source_system := none, affected_component := none }

/-- A backend metadata record for witnesses. -/
def sampleMeta : VSMeta :=
  { source := some "file.md".data, sect := some "Sec".data,
    type := some "general".data }

/-- The search result produced from `sampleMeta` at distance 1/4. -/
def sampleResult : SearchResult :=
  { content := "doc body".data, source_file := "file.md".data, sect := "Sec".data,
    score := 1 - (1 : ℚ) / 4, metadata := sampleMeta }

/-- An index record for the upsert witness. -/
def sampleRecord : IndexRecord :=
  { id := "r.md_0_abcd1234".data, document := "body".data,
    embedding := [1], metadata := sampleMeta }

/-- A generation capability returning text in which "High" and
"Confidence" occur separately but no confidence phrase occurs. -/
def phraseGen : ParsedAlert → Str → Str :=
  fun _ _ => "Confidence: Medium. High priority.".data

/-- Whitespace-erasure of a list of strings, concatenated. -/
def ewl (l : List Str) : Str := (l.map eraseWS).flatten

/-- Shape of the text `chunk_document` prepends to a chunk body:
nothing, or an injected "## ..." header line followed by a blank line. -/
def injectedShape (pre : Str) : Prop :=
  pre = [] ∨ ∃ t : Str, pre = "## ".data ++ t ++ "\n\n".data

/-- Removal of the injected header line from a chunk's content,
following the claim's words: drop the first line when the content
starts with the injected "## " marker. -/
def substantiveOf (c : Str) : Str :=
  if ("## ".data).isPrefixOf c then c.dropWhile (fun x => x ≠ '\n') else c

/-! ## Helper lemmas -/

theorem searchRunbooks_call (search : Str → Nat → Option Str → ℚ → List SearchResult)
    (alert : ParsedAlert) (n : Nat) (ms : ℚ) :
    searchRunbooks search alert n ms =
      search (alert.title ++ " ".data ++ alert.description) n (specTypeFilter alert) ms := by
  unfold searchRunbooks specTypeFilter
  cases h : alert.alert_type <;> simp [h]

/-- General fact about the confidence heuristic: the label is "Medium"
exactly when the text does not contain both "High" and "Confidence" as
substrings, nor both "Low" and "Confidence". -/
theorem confidenceOf_eq_medium (s : Str) :
    confidenceOf s = "Medium".data ↔
      ¬((hasSub "High".data s = true ∧ hasSub "Confidence".data s = true) ∨
        (hasSub "Low".data s = true ∧ hasSub "Confidence".data s = true)) := by
  unfold confidenceOf
  cases hH : hasSub "High".data s <;>
    cases hC : hasSub "Confidence".data s <;>
    cases hL : hasSub "Low".data s <;>
    simp [hH, hC, hL]

/-! ## Claim C4 (classifier fallback) -/

/-- C5: every result of the vector-store search scores at least
`min_score`, where the score is `1 - cosine distance` for one of the
backend's returned distances; lower-scoring candidates are dropped
entirely rather than ranked lower, so fewer than `n_results` results
may be returned. -/
theorem search_min_score_filter (docs : List Str) (metas : List VSMeta)
    (dists : List ℚ) (minScore : ℚ) (r : SearchResult)
    (hr : r ∈ vsSearch docs metas dists minScore) :
    minScore ≤ r.score ∧ ∃ d ∈ dists, r.score = 1 - d := by
  unfold vsSearch at hr
  split at hr
  · simp at hr
  · rw [List.mem_filterMap] at hr
    obtain ⟨dm, hdm, he⟩ := hr
    by_cases hs : minScore ≤ 1 - dm.2
    · rw [if_pos hs] at he
      cases he
      exact ⟨hs, dm.2, (List.of_mem_zip hdm).2, rfl⟩
    · rw [if_neg hs] at he
      cases he

/-- C5 witness at a concrete index state: with `min_score = 1/2` and a
single candidate at distance 1/4, the returned result scores 3/4. -/
theorem search_min_score_filter_witness :
    (1 : ℚ) / 2 ≤ sampleResult.score ∧
    ∃ d ∈ [(1 : ℚ) / 4], sampleResult.score = 1 - d :=
  search_min_score_filter ["doc body".data] [sampleMeta] [(1 : ℚ) / 4]
    ((1 : ℚ) / 2) sampleResult
    (by norm_num [vsSearch, List.filterMap, sampleResult, sampleMeta])

/-! ## Claim C6 (upsert idempotence) -/

/-- C6: upserting the same record twice leaves the store with exactly
one entry for that id, and the second upsert changes nothing (no
duplicate entries, no growth), provided the store held at most one
entry for that id to begin with. The backend storage is modelled from
the spec (see `upsertOne`). -/
theorem upsert_idempotent (store : List IndexRecord) (e : IndexRecord)
    (h : countId store e.id ≤ 1) :
    addDocuments (addDocuments store [e]) [e] = addDocuments store [e] ∧
    countId (addDocuments store [e]) e.id = 1 := by
  have hadd : ∀ s : List IndexRecord, addDocuments s [e] = upsertOne s e := by
    intro s; rfl
  unfold countId at h
  rw [hadd, hadd]
  by_cases hany : store.any (fun x => x.id == e.id)
  · -- the id already exists: in-place replacement
    have hmem : ∃ x ∈ store, x.id = e.id := by
      rcases List.any_eq_true.mp hany with ⟨x, hx, hxe⟩
      exact ⟨x, hx, by simpa using hxe⟩
    have h1 : upsertOne store e = store.map (fun x => if x.id = e.id then e else x) := by
      unfold upsertOne; rw [if_pos hany]
    have hmap2 : (store.map (fun x => if x.id = e.id then e else x)).map
        (fun x => if x.id = e.id then e else x) =
        store.map (fun x => if x.id = e.id then e else x) := by
      rw [List.map_map]
      refine List.map_congr_left ?_
      intro x _
      by_cases hx : x.id = e.id <;> simp [hx]
    have hany2 : (store.map (fun x => if x.id = e.id then e else x)).any
        (fun x => x.id == e.id) := by
      rcases hmem with ⟨x, hx, hxe⟩
      exact List.any_eq_true.mpr ⟨e, List.mem_map.mpr ⟨x, hx, by simp [hxe]⟩, by simp⟩
    constructor
    · rw [h1]; unfold upsertOne; rw [if_pos hany2, hmap2]
    · rw [h1]
      unfold countId
      rw [List.countP_map]
      have hcnt : store.countP
          ((fun x => decide (x.id = e.id)) ∘ fun x => if x.id = e.id then e else x) =
          store.countP (fun x => decide (x.id = e.id)) := by
        refine List.countP_congr ?_
        intro x _
        by_cases hx : x.id = e.id <;> simp [hx]
      rw [hcnt]
      have hpos : 0 < store.countP (fun x => decide (x.id = e.id)) := by
        rcases hmem with ⟨x, hx, hxe⟩
        exact List.countP_pos_iff.mpr ⟨x, hx, by simpa using hxe⟩
      omega
  · -- new id: appended once, then replaced in place by itself
    have hnot : ∀ x ∈ store, ¬x.id = e.id := by
      intro x hx hcon
      exact hany (List.any_eq_true.mpr ⟨x, hx, by simpa using hcon⟩)
    have hzero : store.countP (fun x => decide (x.id = e.id)) = 0 := by
      rw [List.countP_eq_zero]
      intro x hx
      simpa using hnot x hx
    have h1 : upsertOne store e = store ++ [e] := by
      unfold upsertOne; rw [if_neg (by simpa using hany)]
    constructor
    · rw [h1]
      unfold upsertOne
      rw [if_pos (List.any_eq_true.mpr ⟨e, by simp, by simp⟩)]
      rw [List.map_append]
      have hl : store.map (fun x => if x.id = e.id then e else x) = store := by
        conv_rhs => rw [← List.map_id store]
        refine List.map_congr_left ?_
        intro x hx
        simp [hnot x hx]
      have hr2 : [e].map (fun x => if x.id = e.id then e else x) = [e] := by simp
      rw [hl, hr2]
    · rw [h1]
      unfold countId
      rw [List.countP_append, hzero]
      simp

/-- C6 witness: upserting a concrete record into the empty store twice
leaves exactly one entry. -/
theorem upsert_idempotent_witness :
    addDocuments (addDocuments [] [sampleRecord]) [sampleRecord] =
      addDocuments [] [sampleRecord] ∧
    countId (addDocuments [] [sampleRecord]) sampleRecord.id = 1 :=
  upsert_idempotent [] sampleRecord (by decide)

/-! ## Claim C7 (retriever request) -/

/-- C7: the retriever queries with `title + " " + description` and a
metadata type filter equal to the alert's type value exactly when the
type is not `unknown`; an `unknown` type searches unfiltered. -/
theorem search_runbooks_request
    (search : Str → Nat → Option Str → ℚ → List SearchResult)
    (alert : ParsedAlert) (n : Nat) (ms : ℚ) :
    searchRunbooks search alert n ms =
      search (alert.title ++ " ".data ++ alert.description) n (specTypeFilter alert) ms ∧
    (alert.alert_type = AlertTy.unknown → specTypeFilter alert = none) ∧
    (alert.alert_type ≠ AlertTy.unknown →
      specTypeFilter alert = some (alertTyValue alert.alert_type)) := by
  refine ⟨searchRunbooks_call search alert n ms, ?_, ?_⟩
  · intro h; unfold specTypeFilter; rw [h]
  · intro h
    unfold specTypeFilter
    cases halert : alert.alert_type <;> simp_all [alertTyValue]

/-- C7 witness: concrete alerts on both sides of the filter condition. -/
theorem search_runbooks_request_witness :
    specTypeFilter unknownAlert = none ∧
    specTypeFilter infraAlert = some "infrastructure".data := by
  constructor
  · exact (search_runbooks_request (fun _ _ _ _ => []) unknownAlert 5 0).2.1 rfl
  · have h := (search_runbooks_request (fun _ _ _ _ => []) infraAlert 5 0).2.2
      (by decide)
    simpa [infraAlert, alertTyValue] using h

/-! ## Claim C8 (empty retrieval and confidence heuristic) -/

/-- C8, counterexample to the claim as stated: the generated text
"Confidence: Medium. High priority." contains neither the phrase
"High Confidence" nor the phrase "Low Confidence", so by the claim the
confidence must default to "Medium"; the code scans for the substrings
"High" and "Confidence" separately and labels the suggestion "High". -/
theorem confidence_phrase_claim_counterexample :
    (generateSuggestion phraseGen (fun _ => []) unknownAlert []).2 = "High".data ∧
    hasSub "High Confidence".data
      (generateSuggestion phraseGen (fun _ => []) unknownAlert []).1 = false ∧
    hasSub "Low Confidence".data
      (generateSuggestion phraseGen (fun _ => []) unknownAlert []).1 = false ∧
    "High".data ≠ "Medium".data := by decide

/-- C8, amended: an empty retrieval substitutes the fixed sentinel
context, the suggestion text is whatever the generation capability
returns for that sentinel (so it is non-empty whenever the capability
returns non-empty text), and the confidence defaults to "Medium"
exactly when the text does not contain both "High" and "Confidence" as
(possibly separate) substrings, nor both "Low" and "Confidence". -/
theorem confidence_heuristic_amended (gen : ParsedAlert → Str → Str)
    (pct : ℚ → Str) (alert : ParsedAlert) :
    formatRunbookContext pct [] = noContextSentinel ∧
    (generateSuggestion gen pct alert []).1 = gen alert noContextSentinel ∧
    ((generateSuggestion gen pct alert []).2 = "Medium".data ↔
      ¬((hasSub "High".data (generateSuggestion gen pct alert []).1 = true ∧
         hasSub "Confidence".data (generateSuggestion gen pct alert []).1 = true) ∨
        (hasSub "Low".data (generateSuggestion gen pct alert []).1 = true ∧
         hasSub "Confidence".data (generateSuggestion gen pct alert []).1 = true))) :=
  ⟨rfl, rfl, confidenceOf_eq_medium (generateSuggestion gen pct alert []).1⟩

/-! ## Claim C9 (generation failure aborts the pipeline) -/

/-- C9: when the generation capability fails during `process_alert`,
the error propagates to the caller, no ticket is created and the
persistent store is unchanged. -/
theorem generation_failure_aborts (classify : Str → ParsedAlert)
    (searchRB : ParsedAlert → List SearchResult)
    (gen : ParsedAlert → Str → Except Str Str) (pct : ℚ → Str)
    (db : List Ticket) (raw : Str) (e : Str)
    (h : gen (classify raw)
        (formatRunbookContext pct (searchRB (classify raw))) = .error e) :
    processAlert classify searchRB gen pct db raw = (db, .error e) := by
  simp only [processAlert, h]

/-- C9 witness: a concretely failing generation capability leaves a
concrete ticket store untouched and surfaces the error. -/
theorem generation_failure_aborts_witness :
    processAlert (fun _ => unknownAlert) (fun _ => [])
      (fun _ _ => Except.error "api down".data) (fun _ => [])
      [] "disk full".data = ([], Except.error "api down".data) :=
  generation_failure_aborts (fun _ => unknownAlert) (fun _ => [])
    (fun _ _ => Except.error "api down".data) (fun _ => [])
    [] "disk full".data "api down".data rfl

/-! ## Claim C10 (description is the raw message) -/

/-- Every alert classification produces keeps the raw message verbatim
in both `raw_message` and `description`. -/
theorem triageClassifyAlert_ok {loads : Str → Option JValue}
    {raw response : Str} {a : ParsedAlert}
    (h : triageClassifyAlert loads raw response = Except.ok a) :
    a.raw_message = raw ∧ a.description = raw := by
  unfold triageClassifyAlert at h
  split at h
  · split at h
    · simp at h
    · split at h
      · simp at h
      · split at h
        · simp at h
        · split at h
          · simp at h
          · split at h
            · simp at h
            · rw [Except.ok.injEq] at h
              subst h
              exact ⟨rfl, rfl⟩
  · simp at h

/-- C10: whenever classification produces an alert, its `description`
is the raw message itself and `raw_message` is preserved verbatim,
regardless of the classifier output (which is never consulted for the
description), so the retrieval query text is always
`title + " " + raw message`. -/
theorem description_is_raw_message (loads : Str → Option JValue)
    (raw response : Str)
    (search : Str → Nat → Option Str → ℚ → List SearchResult) (n : Nat) (ms : ℚ)
    (alert : ParsedAlert)
    (h : triageClassifyAlert loads raw response = Except.ok alert) :
    alert.description = raw ∧ alert.raw_message = raw ∧
    searchRunbooks search alert n ms =
      search (alert.title ++ " ".data ++ raw) n (specTypeFilter alert) ms := by
  obtain ⟨hraw, hdesc⟩ := triageClassifyAlert_ok h
  refine ⟨hdesc, hraw, ?_⟩
  have hc := searchRunbooks_call search alert n ms
  rwa [hdesc] at hc

/-- C10 witness: the property at a concretely produced alert (the
fallback alert of an unparseable response). -/
theorem description_is_raw_message_witness :
    (fallbackAlert "hello".data).description = "hello".data ∧
    (fallbackAlert "hello".data).raw_message = "hello".data ∧
    searchRunbooks (fun _ _ _ _ => []) (fallbackAlert "hello".data) 5 0 =
      (fun _ _ _ _ => ([] : List SearchResult))
        ((fallbackAlert "hello".data).title ++ " ".data ++ "hello".data) 5
        (specTypeFilter (fallbackAlert "hello".data)) 0 :=
  description_is_raw_message (fun _ => none) "hello".data "x".data
    (fun _ _ _ _ => []) 5 0 (fallbackAlert "hello".data) rfl

/-! ## Whitespace-erasure lemmas -/

theorem eraseWS_append (a b : Str) : eraseWS (a ++ b) = eraseWS a ++ eraseWS b :=
  List.filter_append a b

theorem eraseWS_cons (c : Char) (l : Str) :
    eraseWS (c :: l) = if isPyWS c then eraseWS l else c :: eraseWS l := by
  unfold eraseWS
  rw [List.filter_cons]
  cases h : isPyWS c <;> simp [h]

theorem eraseWS_cons_ws {c : Char} (h : isPyWS c = true) (l : Str) :
    eraseWS (c :: l) = eraseWS l := by
  rw [eraseWS_cons, if_pos h]

theorem eraseWS_dropWhile (l : Str) :
    eraseWS (l.dropWhile isPyWS) = eraseWS l := by
  induction l with
  | nil => rfl
  | cons c rest ih =>
    rw [List.dropWhile_cons]
    cases h : isPyWS c
    · simp [h]
    · simp [h, ih, eraseWS_cons_ws h]

theorem eraseWS_reverse (l : Str) : eraseWS l.reverse = (eraseWS l).reverse := by
  unfold eraseWS
  exact List.filter_reverse _ l

theorem eraseWS_strip (l : Str) : eraseWS (strip l) = eraseWS l := by
  unfold strip
  rw [eraseWS_reverse, eraseWS_dropWhile, eraseWS_reverse, List.reverse_reverse,
    eraseWS_dropWhile]

theorem eraseWS_of_strip_nil {l : Str} (h : strip l = []) : eraseWS l = [] := by
  rw [← eraseWS_strip, h]
  rfl

theorem ewl_nil : ewl [] = [] := rfl

theorem ewl_cons (x : Str) (xs : List Str) : ewl (x :: xs) = eraseWS x ++ ewl xs := rfl

theorem ewl_append (a b : List Str) : ewl (a ++ b) = ewl a ++ ewl b := by
  unfold ewl
  rw [List.map_append, List.flatten_append]

theorem ewl_singleton (x : Str) : ewl [x] = eraseWS x := by
  simp [ewl]

theorem eraseWS_joinSep {sep : Str} (hsep : eraseWS sep = []) (l : List Str) :
    eraseWS (joinSep sep l) = ewl l := by
  induction l with
  | nil => rfl
  | cons x xs ih =>
    cases xs with
    | nil => simp [joinSep, ewl]
    | cons y ys =>
      have hj : joinSep sep (x :: y :: ys) = x ++ sep ++ joinSep sep (y :: ys) := rfl
      rw [hj, eraseWS_append, eraseWS_append, hsep, ewl_cons, ih]
      simp

theorem eraseWS_flatten (l : List Str) : eraseWS l.flatten = ewl l := by
  induction l with
  | nil => rfl
  | cons x xs ih =>
    rw [List.flatten_cons, eraseWS_append, ewl_cons, ih]

theorem ewl_map_strip (l : List Str) : ewl (l.map strip) = ewl l := by
  induction l with
  | nil => rfl
  | cons x xs ih =>
    rw [List.map_cons, ewl_cons, ewl_cons, eraseWS_strip, ih]

theorem ewl_filter_ne_nil (l : List Str) :
    ewl (l.filter (fun x => decide (x ≠ []))) = ewl l := by
  induction l with
  | nil => rfl
  | cons x xs ih =>
    rw [List.filter_cons]
    cases h : decide (x ≠ [])
    · have hx : x = [] := by simpa using h
      simp only [h, Bool.false_eq_true, if_false]
      rw [ih, ewl_cons, hx]
      rfl
    · simp only [h, if_true]
      rw [ewl_cons, ewl_cons, ih]

theorem ewl_map_joinSep {sep : Str} (hsep : eraseWS sep = []) (gl : List (List Str)) :
    ewl (gl.map (joinSep sep)) = ewl gl.flatten := by
  induction gl with
  | nil => rfl
  | cons g gs ih =>
    rw [List.map_cons, ewl_cons, List.flatten_cons, ewl_append,
      eraseWS_joinSep hsep, ih]

/-- Sublists concatenate pointwise. -/
theorem ewl_sublist {l₁ l₂ : List Str} (h : l₁.Sublist l₂) : (ewl l₁).Sublist (ewl l₂) := by
  induction h with
  | slnil => exact List.Sublist.refl _
  | cons a _ ih =>
    rw [ewl_cons]
    exact ih.trans (List.sublist_append_right _ _)
  | cons₂ a _ ih =>
    rw [ewl_cons, ewl_cons]
    exact ih.append_left _

theorem flatten_map_sublist {α : Type} {l : List α} {p q : α → Str}
    (h : ∀ x ∈ l, (p x).Sublist (q x)) :
    ((l.map p).flatten).Sublist ((l.map q).flatten) := by
  induction l with
  | nil => exact List.Sublist.refl _
  | cons x xs ih =>
    rw [List.map_cons, List.map_cons, List.flatten_cons, List.flatten_cons]
    exact List.Sublist.append (h x (by simp)) (ih fun y hy => h y (by simp [hy]))

theorem eraseWS_cons_split (c : Char) (l : Str) :
    eraseWS (c :: l) = eraseWS [c] ++ eraseWS l := by
  rw [eraseWS_cons]
  cases h : isPyWS c
  · simp only [Bool.false_eq_true, if_false]
    have : eraseWS [c] = [c] := by
      unfold eraseWS
      rw [List.filter_cons]
      simp [h]
    rw [this]
    rfl
  · simp only [if_true]
    have : eraseWS [c] = [] := by
      unfold eraseWS
      rw [List.filter_cons]
      simp [h]
    rw [this]
    rfl

/-! ## Reconstruction through the line split and header split -/

theorem splitChar_ne_nil (sep : Char) (s : Str) : splitChar sep s ≠ [] := by
  cases s with
  | nil => simp [splitChar]
  | cons c rest =>
    rw [splitChar]
    by_cases hc : c = sep
    · simp [hc]
    · rw [if_neg hc]
      cases hsc : splitChar sep rest with
      | nil => simp
      | cons p ps => simp

theorem ewl_splitChar {sep : Char} (hsep : isPyWS sep = true) (s : Str) :
    ewl (splitChar sep s) = eraseWS s := by
  induction s with
  | nil => simp [splitChar, ewl, eraseWS]
  | cons c rest ih =>
    by_cases hc : c = sep
    · subst hc
      rw [splitChar, if_pos rfl, ewl_cons, eraseWS_cons_ws hsep, ih]
      rfl
    · cases hsc : splitChar sep rest with
      | nil => exact absurd hsc (splitChar_ne_nil sep rest)
      | cons p ps =>
        have heq : splitChar sep (c :: rest) = (c :: p) :: ps := by
          rw [splitChar, if_neg hc, hsc]
        rw [heq, ewl_cons]
        rw [hsc, ewl_cons] at ih
        rw [eraseWS_cons_split c p, eraseWS_cons_split c rest, List.append_assoc, ih]

/-- The whitespace-erased section contents emitted by the header-split
loop are exactly the erased pending lines followed by the erased
non-header lines of the remaining input. -/
theorem sbh_ewl (ls : List Str) : ∀ (curH : Str) (curC : List Str),
    ewl ((splitByHeadersGo curH curC ls).map Prod.snd) =
      ewl curC ++ ewl (ls.filter (fun l => (matchHeader l).isNone)) := by
  have hemit : ∀ (curH : Str) (curC : List Str),
      ewl (((if curC ≠ [] ∨ curH ≠ [] then
        [(curH, strip (joinSep ['\n'] curC))] else []) :
          List (Str × Str)).map Prod.snd) = ewl curC := by
    intro curH curC
    by_cases h : curC ≠ [] ∨ curH ≠ []
    · rw [if_pos h]
      simp only [List.map_cons, List.map_nil]
      rw [ewl_singleton, eraseWS_strip]
      exact eraseWS_joinSep (by decide) curC
    · rw [if_neg h]
      push_neg at h
      rw [h.1]
      rfl
  induction ls with
  | nil =>
    intro curH curC
    rw [List.filter_nil]
    have := hemit curH curC
    simpa [splitByHeadersGo, ewl_nil] using this
  | cons l rest ih =>
    intro curH curC
    cases hm : matchHeader l with
    | some hh =>
      have heq : splitByHeadersGo curH curC (l :: rest) =
          (if curC ≠ [] ∨ curH ≠ [] then [(curH, strip (joinSep ['\n'] curC))] else [])
            ++ splitByHeadersGo hh [] rest := by
        rw [splitByHeadersGo, hm]
      rw [heq, List.map_append, ewl_append, hemit, ih hh []]
      have hfil : (l :: rest).filter (fun l => (matchHeader l).isNone) =
          rest.filter (fun l => (matchHeader l).isNone) := by
        rw [List.filter_cons, hm]
        simp
      rw [hfil]
      rfl
    | none =>
      have heq : splitByHeadersGo curH curC (l :: rest) =
          splitByHeadersGo curH (curC ++ [l]) rest := by
        rw [splitByHeadersGo, hm]
      rw [heq, ih curH (curC ++ [l])]
      have hfil : (l :: rest).filter (fun l => (matchHeader l).isNone) =
          l :: rest.filter (fun l => (matchHeader l).isNone) := by
        rw [List.filter_cons, hm]
        simp
      rw [hfil]
      simp [ewl_append, ewl_cons, ewl_singleton, ewl_nil, List.append_assoc]

theorem nonHeaderText_ewl (content : Str) :
    eraseWS (nonHeaderText content) = ewl ((splitByHeaders content).map Prod.snd) := by
  unfold nonHeaderText splitByHeaders
  rw [eraseWS_flatten, sbh_ewl]
  rfl

/-! ## Reconstruction through the sentence split -/

theorem splitSentGo_ewl (s : Str) : ∀ (skipping : Bool) (cur : Str),
    ewl (splitSentGo skipping cur s) = eraseWS cur ++ eraseWS s := by
  induction s with
  | nil =>
    intro skipping cur
    simp [splitSentGo, ewl, eraseWS]
  | cons c rest ih =>
    intro skipping cur
    rw [splitSentGo]
    split
    · next h1 =>
      have hw : isPyWS c = true := by
        cases hpw : isPyWS c
        · rw [hpw, Bool.and_false] at h1
          cases h1
        · rfl
      rw [ih, eraseWS_cons_ws hw]
    · split
      · next h2 =>
        have hw : isPyWS c = true := by
          cases hpw : isPyWS c
          · rw [hpw] at h2
            simp at h2
          · rfl
        rw [ewl_cons, ih, eraseWS_cons_ws hw]
        rfl
      · rw [ih, eraseWS_append, eraseWS_cons_split c rest, List.append_assoc]

theorem ewl_splitSentences (t : Str) : ewl (splitSentences t) = eraseWS t := by
  unfold splitSentences
  have h1 : ((splitSentGo false [] t).map strip).filter (· ≠ []) =
      ((splitSentGo false [] t).map strip).filter (fun x => decide (x ≠ [])) := rfl
  rw [h1, ewl_filter_ne_nil, ewl_map_strip, splitSentGo_ewl]
  rfl

theorem splitSentences_ne_nil (t : Str) : ∀ x ∈ splitSentences t, x ≠ [] := by
  intro x hx
  unfold splitSentences at hx
  have := List.of_mem_filter hx
  simpa using this

/-! ## Reconstruction through the paragraph split -/

theorem splitPPGo_ewl (cur s : Str) :
    ewl (splitPPGo cur s) = eraseWS cur ++ eraseWS s := by
  induction cur, s using splitPPGo.induct with
  | case1 cur rest ih =>
    rw [splitPPGo, ewl_cons, ih]
    have h1 : eraseWS ('\n' :: '\n' :: rest) = eraseWS rest := by
      rw [eraseWS_cons_ws (by decide), eraseWS_cons_ws (by decide)]
    rw [h1]
    rfl
  | case2 cur c rest hne ih =>
    rw [splitPPGo.eq_2 cur c rest hne, ih, eraseWS_append,
      eraseWS_cons_split c rest, List.append_assoc]
  | case3 cur =>
    rw [splitPPGo]
    simp [ewl, eraseWS]

theorem splitPP_ewl (t : Str) : ewl (splitPP t) = eraseWS t := by
  unfold splitPP
  rw [splitPPGo_ewl]
  rfl

/-! ## Sum-of-lengths helpers -/

theorem sumLen_nil : sumLen [] = 0 := rfl

theorem sumLen_cons (s : Str) (l : List Str) :
    sumLen (s :: l) = s.length + sumLen l := by
  simp [sumLen]

theorem sumLen_append (a b : List Str) : sumLen (a ++ b) = sumLen a + sumLen b := by
  simp [sumLen]

/-! ## Overlap-seed lemmas -/

theorem overlapGo_shape (V : Nat) : ∀ (rev : List Str) (osize : Nat) (acc : List Str),
    ∃ pre : List Str, overlapGo V osize acc rev = pre.reverse ++ acc ∧ pre.IsPrefix rev := by
  intro rev
  induction rev with
  | nil =>
    intro osize acc
    exact ⟨[], rfl, List.nil_prefix⟩
  | cons s rev' ih =>
    intro osize acc
    rw [overlapGo]
    split
    · obtain ⟨pre, hpre, hp⟩ := ih (osize + s.length + 1) (s :: acc)
      refine ⟨s :: pre, ?_, List.cons_prefix_cons.mpr ⟨rfl, hp⟩⟩
      rw [hpre]
      simp
    · exact ⟨[], rfl, List.nil_prefix⟩

theorem overlapOf_suffix (V : Nat) (cur : List Str) :
    (overlapOf V cur).IsSuffix cur := by
  obtain ⟨pre, hpre, hp⟩ := overlapGo_shape V cur.reverse 0 []
  unfold overlapOf
  rw [hpre, List.append_nil]
  have h2 : pre.reverse.IsSuffix cur.reverse.reverse := List.reverse_suffix.mpr hp
  rwa [List.reverse_reverse] at h2

theorem overlapGo_acc_ne (V : Nat) : ∀ (rev : List Str) (osize : Nat) (acc : List Str),
    acc ≠ [] → overlapGo V osize acc rev ≠ [] := by
  intro rev
  induction rev with
  | nil => intro osize acc h; exact h
  | cons s rev' ih =>
    intro osize acc h
    rw [overlapGo]
    split
    · exact ih _ _ (by simp)
    · exact h

theorem overlapOf_ne_nil {V : Nat} {cur : List Str} {la : Str}
    (hlast : cur.getLast? = some la) (hV : la.length ≤ V) :
    overlapOf V cur ≠ [] := by
  have hh : cur.reverse.head? = some la := by
    rw [List.head?_reverse]
    exact hlast
  cases hrev : cur.reverse with
  | nil => rw [hrev] at hh; cases hh
  | cons x t =>
    rw [hrev] at hh
    have hx : x = la := by
      simpa using hh
    unfold overlapOf
    rw [hrev, overlapGo, if_pos (by simpa [hx] using hV)]
    exact overlapGo_acc_ne V t _ [x] (by simp)

theorem overlapGo_sumLen (V : Nat) : ∀ (rev : List Str) (osize : Nat) (acc : List Str),
    sumLen acc ≤ osize → sumLen (overlapGo V osize acc rev) ≤ max (sumLen acc) V := by
  intro rev
  induction rev with
  | nil => intro osize acc _; exact le_max_left _ _
  | cons s rev' ih =>
    intro osize acc hle
    rw [overlapGo]
    split
    · next hcond =>
      have h1 : sumLen (s :: acc) ≤ osize + s.length + 1 := by
        rw [sumLen_cons]; omega
      have h2 := ih (osize + s.length + 1) (s :: acc) h1
      have h3 : sumLen (s :: acc) ≤ V := by
        rw [sumLen_cons]; omega
      have h4 : max (sumLen (s :: acc)) V = V := max_eq_right h3
      rw [h4] at h2
      exact le_trans h2 (le_max_right _ _)
    · exact le_max_left _ _

theorem overlapOf_sumLen (V : Nat) (cur : List Str) :
    sumLen (overlapOf V cur) ≤ V := by
  have h := overlapGo_sumLen V cur.reverse 0 [] (by simp [sumLen])
  simpa [overlapOf, sumLen] using h

theorem overlapGo_size (V : Nat) : ∀ (rev : List Str) (osize : Nat) (acc : List Str),
    osize = sumLen acc + acc.length →
    sumLen (overlapGo V osize acc rev) + (overlapGo V osize acc rev).length ≤
      max osize (V + 1) := by
  intro rev
  induction rev with
  | nil =>
    intro osize acc h
    rw [overlapGo, ← h]
    exact le_max_left _ _
  | cons s rev' ih =>
    intro osize acc h
    rw [overlapGo]
    split
    · next hcond =>
      have h1 : osize + s.length + 1 = sumLen (s :: acc) + (s :: acc).length := by
        rw [sumLen_cons, List.length_cons]; omega
      have h2 := ih (osize + s.length + 1) (s :: acc) h1
      have h3 : max (osize + s.length + 1) (V + 1) = V + 1 := max_eq_right (by omega)
      rw [h3] at h2
      exact le_trans h2 (le_max_right _ _)
    · rw [← h]
      exact le_max_left _ _

theorem overlapOf_size (V : Nat) (cur : List Str) :
    sumLen (overlapOf V cur) + (overlapOf V cur).length ≤ V + 1 := by
  have h := overlapGo_size V cur.reverse 0 [] (by simp [sumLen])
  simpa [overlapOf] using h

/-! ## Sentence grouping: no sentence is lost -/

theorem groupGo_flatten_sub (S V : Nat) : ∀ (l cur : List Str) (clen : Nat),
    (cur ++ l).Sublist (groupGo S V cur clen l).flatten := by
  intro l
  induction l with
  | nil =>
    intro cur clen
    rw [groupGo]
    split
    · next h => subst h; simp
    · simp
  | cons s rest ih =>
    intro cur clen
    rw [groupGo]
    split
    · have h1 := ih (cur ++ [s]) (clen + s.length + 1)
      rwa [List.append_cons]
    · split
      · next hne =>
        rw [List.flatten_cons]
        refine List.Sublist.append_left ?_ cur
        have h1 := ih (overlapOf V cur ++ [s]) (sumLen (overlapOf V cur ++ [s]) + (overlapOf V cur ++ [s]).length)
        refine List.Sublist.trans ?_ h1
        have : s :: rest = [s] ++ rest := rfl
        rw [this, List.append_assoc]
        exact List.sublist_append_right _ _
      · next hne =>
        have hc : cur = [] := by
          by_contra hcon
          exact hne hcon
        subst hc
        have h1 := ih [s] s.length
        simpa using h1

theorem groupSentences_noLoss (cfg : ChunkerConfig) (sents : List Str) :
    (ewl sents).Sublist (ewl (groupSentences cfg sents)) := by
  have h1 := groupGo_flatten_sub cfg.chunk_size cfg.chunk_overlap sents [] 0
  simp only [List.nil_append] at h1
  have h2 := ewl_sublist h1
  unfold groupSentences groupSentencesLists
  rwa [ewl_map_joinSep (by decide)]

/-! ## Paragraph packing: no paragraph is lost -/

theorem swoGo_noLoss (cfg : ChunkerConfig) : ∀ (ps cur : List Str) (clen : Nat),
    (ewl cur ++ ewl ps).Sublist (ewl (swoGo cfg cur clen ps)) := by
  intro ps
  induction ps with
  | nil =>
    intro cur clen
    rw [swoGo]
    split
    · next h => subst h; simp [ewl]
    · rw [ewl_singleton, eraseWS_joinSep (by decide)]
      simp [ewl]
  | cons p0 rest ih =>
    intro cur clen
    rw [swoGo]
    split
    · next hp =>
      -- stripped paragraph is empty: skipped, and its erased text is empty
      have he : eraseWS p0 = [] := by
        rw [← eraseWS_strip]
        rw [hp]
        rfl
      have h1 := ih cur clen
      rw [ewl_cons, he, List.nil_append]
      exact h1
    · split
      · -- paragraph accepted into the running chunk
        have h1 := ih (cur ++ [strip p0]) (clen + (strip p0).length + 2)
        rw [ewl_append, ewl_singleton, eraseWS_strip] at h1
        rw [ewl_cons, ← List.append_assoc]
        exact h1
      · -- overflow: flush the running chunk, then handle the paragraph
        have hflush : ewl (if cur ≠ [] then [joinSep ['\n', '\n'] cur] else []) = ewl cur := by
          split
          · rw [ewl_singleton, eraseWS_joinSep (by decide)]
          · next h => simp at h; subst h; rfl
        rw [ewl_append, hflush, ewl_cons]
        split
        · -- oversized paragraph: sentence split and grouping
          rw [ewl_append]
          refine List.Sublist.append_left ?_ (ewl cur)
          refine List.Sublist.append ?_ ?_
          · rw [← eraseWS_strip p0, ← ewl_splitSentences (strip p0)]
            exact groupSentences_noLoss cfg (splitSentences (strip p0))
          · have h1 := ih [] 0
            simpa using h1
        · -- paragraph fits alone: seeds the next chunk
          refine List.Sublist.append_left ?_ (ewl cur)
          have h1 := ih [strip p0] (strip p0).length
          rw [ewl_cons, ewl_nil, List.append_nil, eraseWS_strip] at h1
          exact h1

/-! ## No text of the source outside header lines is lost -/

theorem ewl_flatten_list (ll : List (List Str)) :
    ewl ll.flatten = (ll.map ewl).flatten := by
  induction ll with
  | nil => rfl
  | cons x xs ih =>
    rw [List.flatten_cons, ewl_append, List.map_cons, List.flatten_cons, ih]

theorem sectionBodies_noLoss (cfg : ChunkerConfig) (sec : Str × Str) :
    (eraseWS sec.2).Sublist (ewl (sectionBodies cfg sec)) := by
  unfold sectionBodies
  split
  · next h =>
    rw [eraseWS_of_strip_nil h]
    exact List.nil_sublist _
  · split
    · rw [ewl_singleton]
    · unfold splitWithOverlap
      have h1 := swoGo_noLoss cfg (splitPP sec.2) [] 0
      rw [ewl_nil, List.nil_append, splitPP_ewl] at h1
      exact h1

theorem chunkBodies_noLoss (cfg : ChunkerConfig) (content : Str) :
    (eraseWS (nonHeaderText content)).Sublist
      (eraseWS ((chunkBodies cfg content).flatten)) := by
  rw [eraseWS_flatten, nonHeaderText_ewl]
  unfold chunkBodies
  rw [List.flatMap_def, ewl_flatten_list, List.map_map]
  have h1 : ewl ((splitByHeaders content).map Prod.snd) =
      ((splitByHeaders content).map (fun sec => eraseWS sec.2)).flatten := by
    unfold ewl
    rw [List.map_map]
    rfl
  rw [h1]
  exact flatten_map_sublist fun sec _ => sectionBodies_noLoss cfg sec

/-! ## Length bounds on chunk bodies -/

theorem joinSep_length (sep : Str) : ∀ (l : List Str), l ≠ [] →
    (joinSep sep l).length + sep.length = sumLen l + sep.length * l.length := by
  intro l
  induction l with
  | nil => intro h; exact absurd rfl h
  | cons x xs ih =>
    intro _
    cases xs with
    | nil => simp [joinSep, sumLen]
    | cons y ys =>
      have hj : joinSep sep (x :: y :: ys) = x ++ sep ++ joinSep sep (y :: ys) := rfl
      have h1 := ih (by simp)
      rw [hj]
      simp only [List.length_append, sumLen_cons, List.length_cons] at *
      have h2 : sep.length * (y :: ys).length + sep.length =
          sep.length * ((y :: ys).length + 1) := by ring
      simp only [List.length_cons] at h2
      omega

theorem joinSp_length (l : List Str) (h : l ≠ []) :
    (joinSep [' '] l).length + 1 = sumLen l + l.length := by
  have := joinSep_length [' '] l h
  simp only [List.length_cons, List.length_nil] at this
  omega

theorem joinPP_length (l : List Str) (h : l ≠ []) :
    (joinSep ['\n', '\n'] l).length + 2 = sumLen l + 2 * l.length := by
  have := joinSep_length ['\n', '\n'] l h
  simp only [List.length_cons, List.length_nil] at this
  omega

theorem joinSp_append_single (l : List Str) (s : Str) (h : l ≠ []) :
    (joinSep [' '] (l ++ [s])).length =
      (joinSep [' '] l).length + 1 + s.length := by
  have h1 := joinSp_length l h
  have h2 := joinSp_length (l ++ [s]) (by simp)
  rw [sumLen_append] at h2
  simp only [List.length_append, List.length_cons, List.length_nil] at h2
  simp only [sumLen_cons, sumLen_nil] at h2
  omega

theorem joinPP_append_single (l : List Str) (s : Str) (h : l ≠ []) :
    (joinSep ['\n', '\n'] (l ++ [s])).length =
      (joinSep ['\n', '\n'] l).length + 2 + s.length := by
  have h1 := joinPP_length l h
  have h2 := joinPP_length (l ++ [s]) (by simp)
  rw [sumLen_append] at h2
  simp only [List.length_append, List.length_cons, List.length_nil] at h2
  simp only [sumLen_cons, sumLen_nil] at h2
  omega

/-- Bound on the joined length of every chunk `_group_sentences` emits:
greedy packing keeps a chunk within `chunk_size + 1`, and a chunk that
exceeds that is an overlap seed, bounded by
`chunk_overlap + 1 + (longest sentence)`. -/
theorem groupGo_bound (S V M B : Nat) (hSB : S + 1 ≤ B) (hVB : V + M + 1 ≤ B) :
    ∀ (l cur : List Str) (clen : Nat),
      (∀ x ∈ l, x.length ≤ M) →
      (cur ≠ [] →
        (joinSep [' '] cur).length ≤ clen ∧ (joinSep [' '] cur).length ≤ B) →
      ∀ g ∈ groupGo S V cur clen l, (joinSep [' '] g).length ≤ B := by
  intro l
  induction l with
  | nil =>
    intro cur clen _ hcur g hg
    rw [groupGo] at hg
    split at hg
    · cases hg
    · next h =>
      rw [List.mem_singleton] at hg
      subst hg
      exact (hcur h).2
  | cons s rest ih =>
    intro cur clen hl hcur g hg
    have hsM : s.length ≤ M := hl s (by simp)
    have hl' : ∀ x ∈ rest, x.length ≤ M := fun x hx => hl x (by simp [hx])
    rw [groupGo] at hg
    split at hg
    · next hcond =>
      refine ih (cur ++ [s]) (clen + s.length + 1) hl' ?_ g hg
      intro _
      cases hc : cur with
      | nil =>
        subst hc
        have hj : joinSep [' '] ([] ++ [s]) = s := rfl
        rw [hj]
        constructor
        · omega
        · omega
      | cons a t =>
        have hne : cur ≠ [] := by rw [hc]; simp
        rw [← hc]
        rw [joinSp_append_single cur s hne]
        have := (hcur hne).1
        constructor
        · omega
        · omega
    · split at hg
      · next hne =>
        rw [List.mem_cons] at hg
        cases hg with
        | inl hg => subst hg; exact (hcur hne).2
        | inr hg =>
          refine ih _ _ hl' ?_ g hg
          intro _
          have hseedne : overlapOf V cur ++ [s] ≠ [] := by simp
          have hjs := joinSp_length (overlapOf V cur ++ [s]) hseedne
          have hsz := overlapOf_size V cur
          rw [sumLen_append] at hjs
          simp only [List.length_append, List.length_cons, List.length_nil,
            sumLen_cons, sumLen_nil] at hjs
          constructor
          · rw [sumLen_append]
            simp only [List.length_append, List.length_cons, List.length_nil,
              sumLen_cons, sumLen_nil]
            omega
          · omega
      · refine ih [s] s.length hl' ?_ g hg
        intro _
        have hj : joinSep [' '] [s] = s := rfl
        rw [hj]
        exact ⟨le_refl _, by omega⟩

/-- Every chunk emitted by `_split_with_overlap` stays within
`max (chunk_size + 2) (chunk_overlap + M + 1)` where `M` bounds the
sentence lengths of the paragraphs. -/
theorem swoGo_bound (cfg : ChunkerConfig) (M B : Nat)
    (hS2B : cfg.chunk_size + 2 ≤ B)
    (hVB : cfg.chunk_overlap + M + 1 ≤ B) :
    ∀ (ps cur : List Str) (clen : Nat),
      (∀ p ∈ ps, ∀ x ∈ splitSentences (strip p), x.length ≤ M) →
      (cur ≠ [] →
        (joinSep ['\n', '\n'] cur).length ≤ clen ∧
        (joinSep ['\n', '\n'] cur).length ≤ cfg.chunk_size + 2) →
      ∀ b ∈ swoGo cfg cur clen ps, b.length ≤ B := by
  intro ps
  induction ps with
  | nil =>
    intro cur clen _ hcur b hb
    rw [swoGo] at hb
    split at hb
    · cases hb
    · next h =>
      rw [List.mem_singleton] at hb
      subst hb
      exact le_trans (hcur h).2 hS2B
  | cons p0 rest ih =>
    intro cur clen hp hcur b hb
    have hp0 : ∀ x ∈ splitSentences (strip p0), x.length ≤ M := hp p0 (by simp)
    have hp' : ∀ p ∈ rest, ∀ x ∈ splitSentences (strip p), x.length ≤ M :=
      fun p hpr => hp p (by simp [hpr])
    rw [swoGo] at hb
    split at hb
    · exact ih cur clen hp' hcur b hb
    · split at hb
      · next hcond =>
        refine ih _ _ hp' ?_ b hb
        intro _
        cases hc : cur with
        | nil =>
          subst hc
          have hj : joinSep ['\n', '\n'] ([] ++ [strip p0]) = strip p0 := rfl
          rw [hj]
          omega
        | cons a t =>
          have hne : cur ≠ [] := by rw [hc]; simp
          rw [← hc, joinPP_append_single cur (strip p0) hne]
          have := (hcur hne).1
          omega
      · rw [List.mem_append] at hb
        cases hb with
        | inl hb =>
          split at hb
          · next hne =>
            rw [List.mem_singleton] at hb
            subst hb
            exact le_trans (hcur hne).2 hS2B
          · cases hb
        | inr hb =>
          split at hb
          · rw [List.mem_append] at hb
            cases hb with
            | inl hb =>
              unfold groupSentences groupSentencesLists at hb
              rw [List.mem_map] at hb
              obtain ⟨g, hg, hbg⟩ := hb
              subst hbg
              exact groupGo_bound cfg.chunk_size cfg.chunk_overlap M B
                (by omega) hVB _ [] 0 hp0 (fun h => absurd rfl h) g hg
            | inr hb =>
              exact ih [] 0 hp' (fun h => absurd rfl h) b hb
          · next hfits =>
            refine ih _ _ hp' ?_ b hb
            intro _
            have hj : joinSep ['\n', '\n'] [strip p0] = strip p0 := rfl
            rw [hj]
            omega

theorem maxLen_bound {x : Str} {l : List Str} (h : x ∈ l) : x.length ≤ maxLen l := by
  induction l with
  | nil => cases h
  | cons y ys ih =>
    rw [List.mem_cons] at h
    have hm : maxLen (y :: ys) = max y.length (maxLen ys) := by simp [maxLen]
    cases h with
    | inl h => subst h; rw [hm]; exact le_max_left _ _
    | inr h => rw [hm]; exact le_trans (ih h) (le_max_right _ _)

/-- The central bound: every chunk body has length at most
`max (chunk_size + 2) (chunk_overlap + maxSentLen + 1)`. -/
theorem chunkBodies_bound (cfg : ChunkerConfig) (content : Str) :
    ∀ b ∈ chunkBodies cfg content,
      b.length ≤ max (cfg.chunk_size + 2)
        (cfg.chunk_overlap + maxSentLen content + 1) := by
  intro b hb
  set M := maxSentLen content with hM
  set B := max (cfg.chunk_size + 2) (cfg.chunk_overlap + M + 1) with hB
  have hS2B : cfg.chunk_size + 2 ≤ B := le_max_left _ _
  have hVB : cfg.chunk_overlap + M + 1 ≤ B := le_max_right _ _
  unfold chunkBodies at hb
  rw [List.mem_flatMap] at hb
  obtain ⟨sec, hsec, hbsec⟩ := hb
  unfold sectionBodies at hbsec
  split at hbsec
  · cases hbsec
  · split at hbsec
    · next hfits =>
      rw [List.mem_singleton] at hbsec
      subst hbsec
      omega
    · unfold splitWithOverlap at hbsec
      refine swoGo_bound cfg M B hS2B hVB (splitPP sec.2) [] 0 ?_
        (fun h => absurd rfl h) b hbsec
      intro p hpp x hx
      have hmem : x ∈ allSentences content := by
        unfold allSentences
        rw [List.mem_flatMap]
        exact ⟨sec, hsec, by rw [List.mem_flatMap]; exact ⟨p, hpp, hx⟩⟩
      exact maxLen_bound hmem

/-! ## Correspondence between emitted chunks and their bodies -/

theorem partHeader_shape (ht : Str) (i total : Nat) :
    injectedShape (partHeader ht i total) := by
  unfold partHeader injectedShape
  split
  · exact Or.inr ⟨ht ++ " (Part ".data ++ (Nat.repr (i + 1)).data ++ ")".data,
      by simp [List.append_assoc]⟩
  · exact Or.inr ⟨ht, by simp [List.append_assoc]⟩

theorem partChunks_corr (src ht : Str) (total startIdx : Nat) :
    ∀ (subs : List Str) (i : Nat),
      List.Forall₂ (fun (c : DocumentChunk) (b : Str) =>
          ∃ pre, c.content = pre ++ b ∧ injectedShape pre)
        (partChunks src ht total startIdx i subs) subs := by
  intro subs
  induction subs with
  | nil => intro i; exact List.Forall₂.nil
  | cons sub rest ih =>
    intro i
    rw [partChunks]
    exact List.Forall₂.cons ⟨partHeader ht i total, rfl, partHeader_shape ht i total⟩
      (ih (i + 1))

theorem sectionChunks_corr (cfg : ChunkerConfig) (src : Str) (startIdx : Nat)
    (sec : Str × Str) :
    List.Forall₂ (fun (c : DocumentChunk) (b : Str) =>
        ∃ pre, c.content = pre ++ b ∧ injectedShape pre)
      (sectionChunks cfg src startIdx sec) (sectionBodies cfg sec) := by
  unfold sectionChunks sectionBodies
  split
  · exact List.Forall₂.nil
  · split
    · refine List.Forall₂.cons ?_ List.Forall₂.nil
      show ∃ pre,
        (if sec.1 ≠ [] then "## ".data ++ sec.1 ++ "\n\n".data ++ sec.2 else sec.2)
          = pre ++ sec.2 ∧ injectedShape pre
      split
      · exact ⟨"## ".data ++ sec.1 ++ "\n\n".data, by simp [List.append_assoc],
          Or.inr ⟨sec.1, rfl⟩⟩
      · exact ⟨[], rfl, Or.inl rfl⟩
    · exact partChunks_corr src _ _ startIdx _ 0

theorem chunkDocument_corr (cfg : ChunkerConfig) (content src : Str) :
    List.Forall₂ (fun (c : DocumentChunk) (b : Str) =>
        ∃ pre, c.content = pre ++ b ∧ injectedShape pre)
      (chunkDocument cfg content src) (chunkBodies cfg content) := by
  unfold chunkDocument chunkBodies
  have hfold : ∀ (secs : List (Str × Str)) (acc : List DocumentChunk) (accB : List Str),
      List.Forall₂ (fun (c : DocumentChunk) (b : Str) =>
          ∃ pre, c.content = pre ++ b ∧ injectedShape pre) acc accB →
      List.Forall₂ (fun (c : DocumentChunk) (b : Str) =>
          ∃ pre, c.content = pre ++ b ∧ injectedShape pre)
        (secs.foldl (fun a sec => a ++ sectionChunks cfg src a.length sec) acc)
        (accB ++ secs.flatMap (sectionBodies cfg)) := by
    intro secs
    induction secs with
    | nil => intro acc accB h; simpa using h
    | cons sec rest ih =>
      intro acc accB h
      rw [List.foldl_cons, List.flatMap_cons, ← List.append_assoc]
      exact ih _ _ (List.rel_append h (sectionChunks_corr cfg src acc.length sec))
  simpa using hfold (splitByHeaders content) [] [] List.Forall₂.nil

theorem forall₂_mem_left {α β : Type} {R : α → β → Prop} {l₁ : List α} {l₂ : List β}
    (h : List.Forall₂ R l₁ l₂) {a : α} (ha : a ∈ l₁) : ∃ b ∈ l₂, R a b := by
  induction h with
  | nil => cases ha
  | cons hr _ ih =>
    rw [List.mem_cons] at ha
    cases ha with
    | inl ha => subst ha; exact ⟨_, by simp, hr⟩
    | inr ha =>
      obtain ⟨b, hb, hrb⟩ := ih ha
      exact ⟨b, by simp [hb], hrb⟩

/-! ## Claim C1 (chunk size bound) -/

/-- C1, counterexample to the claim as stated: with `chunk_size = 14`
and `chunk_overlap = 9`, the document "## H.\naaa. bbb. ccccc." yields
a chunk of content length 32 > 14 even though no sentence of the chunk
is longer than 14 and the chunk holds more than one sentence: the
injected header line and the overlap seeding both push a chunk past
`chunk_size` without any oversized sentence being involved. -/
theorem chunk_size_claim_counterexample :
    ∃ c ∈ chunkDocument ⟨14, 9, 100⟩ "## H.\naaa. bbb. ccccc.".data "x.md".data,
      14 < c.content.length ∧
      (splitSentences c.content).all (fun s => decide (s.length ≤ 14)) = true ∧
      (splitSentences c.content).length ≠ 1 := by decide

/-- C1, amended: every chunk's content is an optional injected header
line (`"## ..."` plus a blank line) followed by a body, and the body's
length is at most `max (chunkSize + 2) (chunkOverlap + M + 1)` where
`M` is the length of the longest sentence of the document; the body
exceeds `chunkSize` by more than the separator slack of 2 only through
an oversized sentence or through overlap seeding. -/
theorem chunk_size_bound_amended (cfg : ChunkerConfig) (content src : Str)
    (c : DocumentChunk) (hc : c ∈ chunkDocument cfg content src) :
    ∃ pre body : Str, c.content = pre ++ body ∧ injectedShape pre ∧
      body.length ≤ max (cfg.chunk_size + 2)
        (cfg.chunk_overlap + maxSentLen content + 1) := by
  obtain ⟨b, hb, pre, hpre, hshape⟩ :=
    forall₂_mem_left (chunkDocument_corr cfg content src) hc
  exact ⟨pre, b, hpre, hshape, chunkBodies_bound cfg content b hb⟩

/-- C1 witness: the bound applied to a concrete one-chunk document. -/
theorem chunk_size_bound_amended_witness :
    ∃ pre body : Str,
      ({ content := "## A\n\nhello".data,
         metadata := { source := "f.md".data, sect := "A".data, part := none,
                       type := "general".data },
         chunk_index := 0, source_file := "f.md".data,
         section_header := "A".data } : DocumentChunk).content = pre ++ body ∧
      injectedShape pre ∧
      body.length ≤ max (100 + 2) (50 + maxSentLen "## A\nhello".data + 1) :=
  chunk_size_bound_amended ⟨100, 50, 100⟩ "## A\nhello".data "f.md".data
    { content := "## A\n\nhello".data,
      metadata := { source := "f.md".data, sect := "A".data, part := none,
                    type := "general".data },
      chunk_index := 0, source_file := "f.md".data,
      section_header := "A".data }
    (by decide)

/-! ## Claim C2 (no content loss) -/

/-- C2, counterexample to the claim as stated: for the document
"## A\nhello", the only chunk is "## A\n\nhello"; its substantive
content with the injected header line removed is "hello", which does
not reproduce the source modulo whitespace, because the source's own
header line "## A" was consumed by the header split and only
re-rendered inside the injected header. -/
theorem chunk_concat_claim_counterexample :
    eraseWS (((chunkDocument ⟨100, 50, 100⟩ "## A\nhello".data "f.md".data).map
        (fun c => substantiveOf c.content)).flatten) ≠
      eraseWS "## A\nhello".data := by decide

/-- C2, amended: each chunk's content is its body with an optional
injected header line in front, and concatenating the bodies preserves,
in order, every non-whitespace character of the source's non-header
lines (no text outside header lines is lost). Equality modulo
whitespace does not hold in general: header-line text survives only
inside the injected headers, and overlap seeding may duplicate
sentences. -/
theorem chunk_no_loss_amended (cfg : ChunkerConfig) (content src : Str) :
    List.Forall₂ (fun (c : DocumentChunk) (b : Str) =>
        ∃ pre, c.content = pre ++ b ∧ injectedShape pre)
      (chunkDocument cfg content src) (chunkBodies cfg content) ∧
    (eraseWS (nonHeaderText content)).Sublist
      (eraseWS ((chunkBodies cfg content).flatten)) :=
  ⟨chunkDocument_corr cfg content src, chunkBodies_noLoss cfg content⟩

/-! ## Claim C3 (overlap across adjacent sentence chunks) -/

theorem groupGo_head_ext (S V : Nat) : ∀ (l cur : List Str) (clen : Nat),
    cur ≠ [] →
    ∃ (ext : List Str) (tail : List (List Str)),
      groupGo S V cur clen l = (cur ++ ext) :: tail := by
  intro l
  induction l with
  | nil =>
    intro cur clen h
    rw [groupGo, if_neg h]
    exact ⟨[], [], by simp⟩
  | cons s rest ih =>
    intro cur clen h
    by_cases hacc : clen + s.length ≤ S
    · obtain ⟨ext, tail, heq⟩ := ih (cur ++ [s]) (clen + s.length + 1) (by simp)
      exact ⟨[s] ++ ext, tail, by rw [groupGo, if_pos hacc, heq, List.append_assoc]⟩
    · refine ⟨[], groupGo S V (overlapOf V cur ++ [s])
        (sumLen (overlapOf V cur ++ [s]) + (overlapOf V cur ++ [s]).length) rest, ?_⟩
      rw [groupGo, if_neg hacc, if_pos h]
      simp

/-- Adjacent chunks in the output of `_group_sentences`: when the
earlier chunk's final sentence fits in the overlap budget, the overlap
seed (a non-empty suffix of the earlier chunk with sentence lengths
summing within `chunk_overlap`) opens the later chunk. -/
theorem groupGo_adjacent (S V : Nat) : ∀ (l cur : List Str) (clen : Nat)
    (pre : List (List Str)) (a b : List Str) (post : List (List Str)) (la : Str),
    groupGo S V cur clen l = pre ++ a :: b :: post →
    a.getLast? = some la → la.length ≤ V →
    ∃ ov : List Str, ov ≠ [] ∧ ov.IsSuffix a ∧ ov.IsPrefix b ∧ sumLen ov ≤ V := by
  intro l
  induction l with
  | nil =>
    intro cur clen pre a b post la heq _ _
    exfalso
    rw [groupGo] at heq
    split at heq
    · have := congrArg List.length heq
      simp at this
      omega
    · have := congrArg List.length heq
      simp at this
      omega
  | cons s rest ih =>
    intro cur clen pre a b post la heq hlast hV
    rw [groupGo] at heq
    split at heq
    · exact ih _ _ pre a b post la heq hlast hV
    · split at heq
      · next hne =>
        cases pre with
        | nil =>
          rw [List.nil_append] at heq
          rw [List.cons_eq_cons] at heq
          obtain ⟨hca, hG⟩ := heq
          subst hca
          obtain ⟨ext, tail, hext⟩ :=
            groupGo_head_ext S V rest (overlapOf V cur ++ [s])
              (sumLen (overlapOf V cur ++ [s]) + (overlapOf V cur ++ [s]).length)
              (by simp)
          rw [hext, List.cons_eq_cons] at hG
          obtain ⟨hb, _⟩ := hG
          refine ⟨overlapOf V cur, overlapOf_ne_nil hlast hV,
            overlapOf_suffix V cur, ?_, overlapOf_sumLen V cur⟩
          rw [← hb, List.append_assoc]
          exact List.prefix_append _ _
        | cons p pre' =>
          rw [List.cons_append, List.cons_eq_cons] at heq
          exact ih _ _ pre' a b post la heq.2 hlast hV
      · exact ih _ _ pre a b post la heq hlast hV

/-- C3, counterexample to the claim as stated: with
`chunk_overlap = 1 > 0`, the oversized paragraph "abcd. efgh."
(11 characters > `chunk_size` = 10) is split into two adjacent sentence
chunks that share no sentence at all: the trailing sentence "abcd." of
the earlier chunk is longer than the overlap budget, so the seed is
empty and no suffix of the earlier chunk reappears in the later one. -/
theorem overlap_claim_counterexample :
    0 < (1 : Nat) ∧
    10 < ("abcd. efgh.".data).length ∧
    groupSentencesLists ⟨10, 1, 100⟩ (splitSentences "abcd. efgh.".data) =
      [["abcd.".data], ["efgh.".data]] ∧
    ¬∃ ov : List Str, ov ≠ [] ∧ ov.IsSuffix ["abcd.".data] ∧
      ov.IsPrefix ["efgh.".data] := by
  refine ⟨by decide, by decide, by decide, ?_⟩
  rintro ⟨ov, hne, hsuf, hpre⟩
  have h1 := hsuf.sublist
  rw [List.sublist_singleton] at h1
  have h2 := hpre.sublist
  rw [List.sublist_singleton] at h2
  rcases h1 with h1 | h1
  · exact hne h1
  · rcases h2 with h2 | h2
    · exact hne h2
    · rw [h1] at h2
      exact absurd h2 (by decide)

/-- C3, amended: for any two chronologically adjacent sentence-split
chunks produced by `_group_sentences`, whenever the earlier chunk's
final sentence has length at most `chunkOverlap`, a non-empty suffix of
the earlier chunk's sentence sequence reappears as a prefix of the
later chunk, and the carried sentences' cumulative length is at most
`chunkOverlap`. (When the final sentence alone exceeds `chunkOverlap`,
the seed is empty even though `chunkOverlap > 0`.) -/
theorem overlap_seeding_amended (cfg : ChunkerConfig) (sents : List Str)
    (pre : List (List Str)) (a b : List Str) (post : List (List Str)) (la : Str)
    (hsplit : groupSentencesLists cfg sents = pre ++ a :: b :: post)
    (hlast : a.getLast? = some la) (hV : la.length ≤ cfg.chunk_overlap) :
    ∃ ov : List Str, ov ≠ [] ∧ ov.IsSuffix a ∧ ov.IsPrefix b ∧
      sumLen ov ≤ cfg.chunk_overlap :=
  groupGo_adjacent cfg.chunk_size cfg.chunk_overlap sents [] 0 pre a b post la
    hsplit hlast hV

/-- C3 witness: a concrete oversized paragraph whose two sentence
chunks share the seeded suffix. -/
theorem overlap_seeding_amended_witness :
    ∃ ov : List Str, ov ≠ [] ∧ ov.IsSuffix ["aaa.".data, "bbb.".data] ∧
      ov.IsPrefix ["aaa.".data, "bbb.".data, "ccccc.".data] ∧ sumLen ov ≤ 9 :=
  overlap_seeding_amended ⟨14, 9, 100⟩ (splitSentences "aaa. bbb. ccccc.".data)
    [] ["aaa.".data, "bbb.".data] ["aaa.".data, "bbb.".data, "ccccc.".data] []
    "bbb.".data (by decide) (by decide) (by decide)

